import Mathlib

/-!
Shallow embedding of `gofixunkeyedcomposites` (src/main.go).

Bytes are modelled as `List Char`; `token.Pos` values are modelled directly as
byte offsets (`v.file.Offset` is the identity of this modelling).  The parser,
the type checker and `format.Source` are the external collaborators of the
spec: the parse tree, the node-to-type table and the final formatter are
parameters of the model.
-/

/-- Shapes of `go/types.Type` as far as `assertStructType` distinguishes them:
a struct carries its field names in declared order; a pointer has an element
type; a named type has an underlying type; everything else (arrays, maps,
basic types, ...) is `basic`. -/
inductive GoType where
  | struct (fields : List String)
  | pointer (elem : GoType)
  | named (underlying : GoType)
  | basic
deriving DecidableEq

/-- `assertStructType` from src/main.go lines 269-278: unwrap at most one
pointer, then at most one named type, and require a struct. -/
def assertStructType (typ : GoType) : Option (List String) :=
  let t1 := match typ with
    | .pointer e => e
    | t => t
  let t2 := match t1 with
    | .named u => u
    | t => t
  match t2 with
  | .struct fields => some fields
  | _ => none

/-- Syntax-tree nodes as far as `visitor.Visit` distinguishes them:
`compositeLit` (with an identity used as key of the type table, its start
offset, and its element list), `keyValue` (an `ast.KeyValueExpr`), and a
generic `node` for every other kind of node. -/
inductive Expr where
  | compositeLit (id : Nat) (pos : Nat) (elts : List Expr)
  | keyValue (pos : Nat) (key : Expr) (value : Expr)
  | node (pos : Nat) (children : List Expr)

/-- `Expr.Pos()`: the start offset of a node. -/
def Expr.pos : Expr → Nat
  | .compositeLit _ p _ => p
  | .keyValue p _ _ => p
  | .node p _ => p

/-- The `_, ok := e.(*ast.KeyValueExpr)` test. -/
def Expr.isKeyValue : Expr → Bool
  | .keyValue _ _ _ => true
  | _ => false

/-- The guard `len(lit.Elts) > 0 && lit.Elts[0] is a KeyValueExpr`
(src/main.go lines 251-256). -/
def headIsKeyValue : List Expr → Bool
  | [] => false
  | e :: _ => e.isKeyValue

/-- `chunk` from src/main.go lines 192-195: one insertion edit. -/
structure chunk where
  offset : Nat
  b : List Char
deriving DecidableEq

/-- `visitor` from src/main.go lines 197-205.  `types` is the node-to-type
table filled by the external type checker (keyed by node identity); `input`
is `v.in`, `none` when no output bytes were requested (`w == nil`). -/
structure visitor where
  types : List (Nat × GoType)
  input : Option (List Char)
  added : List chunk
  fixed : Bool
deriving DecidableEq

/-- `visitor.writeAfter` from src/main.go lines 224-226. -/
def visitor.writeAfter (v : visitor) (pos : Nat) (s : String) : visitor :=
  { v with added := v.added ++ [{ offset := pos, b := s.toList }] }

/-- `visitor.Visit` from src/main.go lines 228-267.  The write loop
`for i := 0; i < s.NumFields(); i++` runs under the guard
`len(lit.Elts) == s.NumFields()`, so it is the fold of `writeAfter` over
`lit.Elts` zipped with the field names. -/
def visitor.Visit (v : visitor) (node : Expr) : visitor :=
  match node with
  | .compositeLit id _ elts =>
    match List.lookup id v.types with
    | none => v
    | some typ =>
      match assertStructType typ with
      | none => v
      | some s =>
        if s.length = 0 then v
        else if elts.length ≠ s.length then v
        else if headIsKeyValue elts then v
        else
          let v1 :=
            if v.input.isSome then
              (elts.zip s).foldl (fun vv q => vv.writeAfter q.1.pos (q.2 ++ ": ")) v
            else v
          { v1 with fixed := true }
  | _ => v

mutual
/-- `ast.Walk(v, node)`: pre-order traversal; `Visit` always returns the
same visitor, so every subtree is walked. -/
def walk (v : visitor) : Expr → visitor
  | .compositeLit id p elts => walkList (v.Visit (.compositeLit id p elts)) elts
  | .keyValue p k val => walk (walk (v.Visit (.keyValue p k val)) k) val
  | .node p cs => walkList (v.Visit (.node p cs)) cs

def walkList (v : visitor) : List Expr → visitor
  | [] => v
  | e :: es => walkList (walk v e) es
end

/-- Insert a chunk into a list already sorted by ascending offset. -/
def insertChunk (c : chunk) : List chunk → List chunk
  | [] => [c]
  | d :: ds => if c.offset ≤ d.offset then c :: d :: ds else d :: insertChunk c ds

/-- The `sort.Slice(v.added, ...)` ascending-offset sort (src/main.go
lines 208-210), modelled as insertion sort. -/
def sortChunks : List chunk → List chunk
  | [] => []
  | c :: cs => insertChunk c (sortChunks cs)

/-- `visitor.out` from src/main.go lines 207-222: sort the edits, then a
single cursor scan interleaving original spans with the insertions. -/
def visitor.out (v : visitor) : List Char :=
  let inp := v.input.getD []
  let r := (sortChunks v.added).foldl
    (fun (acc : List Char × Nat) (c : chunk) =>
      (acc.1 ++ (inp.drop acc.2).take (c.offset - acc.2) ++ c.b, c.offset))
    ([], 0)
  r.1 ++ inp.drop r.2

/-- The Eligibility Classifier (spec section 4.1): the exact guard cascade of
`visitor.Visit`, as a boolean. -/
def eligible (types : List (Nat × GoType)) : Expr → Bool
  | .compositeLit id _ elts =>
    match List.lookup id types with
    | none => false
    | some typ =>
      match assertStructType typ with
      | none => false
      | some s =>
        if s.length = 0 then false
        else if elts.length ≠ s.length then false
        else if headIsKeyValue elts then false
        else true
  | _ => false

mutual
/-- At least one eligible composite literal occurs in the tree. -/
def anyEligible (types : List (Nat × GoType)) : Expr → Bool
  | .compositeLit id p elts =>
      eligible types (.compositeLit id p elts) || anyEligibleList types elts
  | .keyValue _ k val => anyEligible types k || anyEligible types val
  | .node _ cs => anyEligibleList types cs

def anyEligibleList (types : List (Nat × GoType)) : List Expr → Bool
  | [] => false
  | e :: es => anyEligible types e || anyEligibleList types es
end

/-- The edits the Patch Builder emits for one composite literal: one chunk
per element, at the element's start offset, inserting the field name and
a separator. -/
def litChunks (types : List (Nat × GoType)) : Expr → List chunk
  | .compositeLit id _ elts =>
    match List.lookup id types with
    | none => []
    | some typ =>
      match assertStructType typ with
      | none => []
      | some s =>
          (elts.zip s).map (fun q => { offset := q.1.pos, b := (q.2 ++ ": ").toList })
  | _ => []

/-- The Patch Applier scan, stated as the spec states it: a cursor starting
at 0; for each edit, append the original bytes from the cursor up to but not
including the edit's offset, append the insertion text, and advance the
cursor exactly to the edit's offset; after the last edit, append the
remaining original bytes. -/
def applyEdits (input : List Char) (cursor : Nat) : List chunk → List Char
  | [] => input.drop cursor
  | c :: cs =>
      (input.drop cursor).take (c.offset - cursor) ++ c.b ++ applyEdits input c.offset cs

/-- Insert the text `t` immediately before the byte at offset `off`,
deleting nothing (the meaning of an Edit in the spec's data model). -/
def insertAt (l : List Char) (off : Nat) (t : List Char) : List Char :=
  l.take off ++ t ++ l.drop off

/-- Apply a list of edits, sorted by ascending offset, by repeated insertion
at the original offsets (the later, larger offsets first, so that the
earlier offsets still refer to the original bytes). -/
def insertAll : List chunk → List Char → List Char
  | [], l => l
  | c :: cs, l => insertAt (insertAll cs l) c.offset c.b

/-- The key-value wrapper that the first run's patch produces around one
literal element, as it reappears in the reparsed tree (its key is the
inserted field-name identifier). -/
def wrapKey (e : Expr) : Expr := .keyValue e.pos (.node e.pos []) e

mutual
/-- The syntax tree obtained by reparsing the first run's patched output:
each eligible literal's elements are wrapped into key-value pairs, every
other node keeps its shape (positions shift in the patched text, but the
classifier never reads positions). -/
def patchTree (types : List (Nat × GoType)) : Expr → Expr
  | .compositeLit id p elts =>
      if eligible types (.compositeLit id p elts) then
        .compositeLit id p ((patchList types elts).map wrapKey)
      else
        .compositeLit id p (patchList types elts)
  | .keyValue p k val => .keyValue p (patchTree types k) (patchTree types val)
  | .node p cs => .node p (patchList types cs)

def patchList (types : List (Nat × GoType)) : List Expr → List Expr
  | [] => []
  | e :: es => patchTree types e :: patchList types es
end

/-- The visitor `fixFile` constructs (src/main.go line 166), with `v.in`
already set from the read step of lines 167-172. -/
def initVisitor (types : List (Nat × GoType)) (input : Option (List Char)) : visitor :=
  { types := types, input := input, added := [], fixed := false }

/-- `fixFile` from src/main.go lines 107-190, with the external collaborators
as parameters: `tree` and `types` are the parser's and the type checker's
results for the unit (type-check errors are ignored through `cfg.Error`),
`fs` is the file system read (`ioutil.ReadFile`), `fmt` the external
`format.Source` canonicalizer, `emit` whether an output writer was passed
(`w != nil`), and `path` the file path argument (`""` in stdin mode, where
the stream itself is only given to the parser).  Returns the bytes written
to `w` and the `fixed` flag. -/
def fixFile (fs : String → Option (List Char)) (fmt : List Char → List Char)
    (emit : Bool) (path : String) (types : List (Nat × GoType)) (tree : Expr) :
    Except String (Option (List Char) × Bool) :=
  match emit, fs path with
  | true, none => .error ("open " ++ path ++ ": no such file or directory")
  | true, some content =>
      let v := walk (initVisitor types (some content)) tree
      .ok (some (fmt v.out), v.fixed)
  | false, _ =>
      let v := walk (initVisitor types none) tree
      .ok (none, v.fixed)

/-- Outcome of the stdin branch of `main` (src/main.go lines 32-49). -/
inductive StdinOutcome where
  | usageError
  | runError (msg : String)
  | done (stdoutText : Option (List Char)) (printedPlaceholder : Bool)
deriving DecidableEq

/-- The stdin branch of `main`: with no path arguments, `-w` is a fatal
usage error reported before anything is parsed or fixed; otherwise the
stream is fixed with the output writer set to stdout unless `-l` was given,
and in list mode the `<standard input>` placeholder is printed when the
stream needed fixing. -/
def mainStdin (fs : String → Option (List Char)) (fmt : List Char → List Char)
    (overwrite list : Bool) (types : List (Nat × GoType)) (tree : Expr) : StdinOutcome :=
  if overwrite then .usageError
  else
    match fixFile fs fmt (!list) "" types tree with
    | .error e => .runError e
    | .ok (out, fixed) => .done out (fixed && list)

/-- What one iteration of `main`'s path loop (src/main.go lines 52-83) does
with one file: the bytes sent to stdout, whether the path was printed in
list mode, and the bytes written back to the file in overwrite mode. -/
structure FileResult where
  stdoutText : Option (List Char)
  printedPath : Bool
  written : Option (List Char)
deriving DecidableEq

/-- One iteration of `main`'s path loop: the writer is an in-memory buffer
in overwrite mode, stdout unless list mode, and absent otherwise; a file
that fixed is printed in list mode; in overwrite mode the buffer is written
back to the path unconditionally. -/
def processFile (fs : String → Option (List Char)) (fmt : List Char → List Char)
    (overwrite list : Bool) (path : String) (types : List (Nat × GoType)) (tree : Expr) :
    Except String FileResult :=
  let emit := overwrite || !list
  match fixFile fs fmt emit path types tree with
  | .error e => .error e
  | .ok (out, fixed) =>
      .ok { stdoutText := if overwrite then none else out,
            printedPath := fixed && list,
            written := if overwrite then out else none }

theorem foldl_writeAfter (l : List (Expr × String)) (v : visitor) :
    l.foldl (fun vv q => vv.writeAfter q.1.pos (q.2 ++ ": ")) v
      = { v with
          added := v.added ++ l.map (fun q => { offset := q.1.pos, b := (q.2 ++ ": ").toList }) } := by
  induction l generalizing v with
  | nil => simp
  | cons q l ih =>
    rw [List.foldl_cons, ih]
    simp [visitor.writeAfter]

/-- `Visit` in one equation: on an eligible literal it appends the literal's
chunks (when output bytes were requested) and sets the `fixed` flag; on
anything else it is the identity. -/
theorem Visit_eq (v : visitor) (e : Expr) :
    v.Visit e =
      if eligible v.types e then
        { v with
          added := if v.input.isSome then v.added ++ litChunks v.types e else v.added,
          fixed := true }
      else v := by
  cases e with
  | keyValue p k w => simp [visitor.Visit, eligible]
  | node p cs => simp [visitor.Visit, eligible]
  | compositeLit id p elts =>
    rcases hl : List.lookup id v.types with _ | typ
    · simp [visitor.Visit, eligible, hl]
    · rcases ha : assertStructType typ with _ | s
      · simp [visitor.Visit, eligible, hl, ha]
      · by_cases h1 : s.length = 0
        · simp [visitor.Visit, eligible, hl, ha, h1]
        · by_cases h2 : elts.length = s.length
          · by_cases h3 : headIsKeyValue elts
            · simp [visitor.Visit, eligible, hl, ha, h1, h2, h3]
            · cases hin : v.input.isSome
              · simp [visitor.Visit, eligible, litChunks, hl, ha, h1, h2, h3, hin]
              · simp [visitor.Visit, eligible, litChunks, hl, ha, h1, h2, h3, hin,
                  foldl_writeAfter]
          · simp [visitor.Visit, eligible, hl, ha, h1, h2]

theorem Visit_types (v : visitor) (e : Expr) : (v.Visit e).types = v.types := by
  rw [Visit_eq]; split <;> rfl

theorem Visit_input (v : visitor) (e : Expr) : (v.Visit e).input = v.input := by
  rw [Visit_eq]; split <;> rfl

theorem Visit_fixed (v : visitor) (e : Expr) :
    (v.Visit e).fixed = (v.fixed || eligible v.types e) := by
  rw [Visit_eq]
  by_cases h : eligible v.types e = true <;> simp [h]

theorem Visit_not_eligible (v : visitor) (e : Expr) (h : eligible v.types e = false) :
    v.Visit e = v := by
  rw [Visit_eq, if_neg]
  simp [h]

theorem Visit_keyValue (v : visitor) (p : Nat) (k val : Expr) :
    v.Visit (.keyValue p k val) = v := rfl

theorem Visit_node (v : visitor) (p : Nat) (cs : List Expr) :
    v.Visit (.node p cs) = v := rfl

mutual
theorem walk_spec (v : visitor) (t : Expr) :
    (walk v t).types = v.types ∧ (walk v t).input = v.input ∧
      (walk v t).fixed = (v.fixed || anyEligible v.types t) := by
  cases t with
  | compositeLit id p elts =>
    have hv := walkList_spec (v.Visit (.compositeLit id p elts)) elts
    simp only [walk, anyEligible]
    refine ⟨?_, ?_, ?_⟩
    · rw [hv.1, Visit_types]
    · rw [hv.2.1, Visit_input]
    · rw [hv.2.2, Visit_fixed, Visit_types, Bool.or_assoc]
  | keyValue p k val =>
    have h1 := walk_spec (v.Visit (.keyValue p k val)) k
    have h2 := walk_spec (walk (v.Visit (.keyValue p k val)) k) val
    simp only [walk, anyEligible]
    refine ⟨?_, ?_, ?_⟩
    · rw [h2.1, h1.1, Visit_types]
    · rw [h2.2.1, h1.2.1, Visit_input]
    · rw [h2.2.2, h1.2.2, h1.1, Visit_fixed, Visit_types]
      have he : eligible v.types (.keyValue p k val) = false := rfl
      rw [he]
      simp [Bool.or_assoc]
  | node p cs =>
    have hv := walkList_spec (v.Visit (.node p cs)) cs
    simp only [walk, anyEligible]
    refine ⟨?_, ?_, ?_⟩
    · rw [hv.1, Visit_types]
    · rw [hv.2.1, Visit_input]
    · rw [hv.2.2, Visit_fixed, Visit_types]
      have he : eligible v.types (.node p cs) = false := rfl
      rw [he]
      simp

theorem walkList_spec (v : visitor) (ts : List Expr) :
    (walkList v ts).types = v.types ∧ (walkList v ts).input = v.input ∧
      (walkList v ts).fixed = (v.fixed || anyEligibleList v.types ts) := by
  cases ts with
  | nil => simp [walkList, anyEligibleList]
  | cons e es =>
    have h1 := walk_spec v e
    have h2 := walkList_spec (walk v e) es
    simp only [walkList, anyEligibleList]
    refine ⟨?_, ?_, ?_⟩
    · rw [h2.1, h1.1]
    · rw [h2.2.1, h1.2.1]
    · rw [h2.2.2, h1.1, h1.2.2, Bool.or_assoc]
end

mutual
theorem walk_no_eligible (v : visitor) (t : Expr)
    (h : anyEligible v.types t = false) : walk v t = v := by
  cases t with
  | compositeLit id p elts =>
    simp only [anyEligible, Bool.or_eq_false_iff] at h
    simp only [walk]
    rw [Visit_not_eligible v _ h.1]
    exact walkList_no_eligible v elts h.2
  | keyValue p k val =>
    simp only [anyEligible, Bool.or_eq_false_iff] at h
    simp only [walk]
    rw [Visit_not_eligible v (.keyValue p k val) rfl, walk_no_eligible v k h.1]
    exact walk_no_eligible v val h.2
  | node p cs =>
    simp only [anyEligible] at h
    simp only [walk]
    rw [Visit_not_eligible v (.node p cs) rfl]
    exact walkList_no_eligible v cs h

theorem walkList_no_eligible (v : visitor) (ts : List Expr)
    (h : anyEligibleList v.types ts = false) : walkList v ts = v := by
  cases ts with
  | nil => rfl
  | cons e es =>
    simp only [anyEligibleList, Bool.or_eq_false_iff] at h
    simp only [walkList]
    rw [walk_no_eligible v e h.1]
    exact walkList_no_eligible v es h.2
end

theorem insertChunk_perm (c : chunk) (l : List chunk) :
    List.Perm (insertChunk c l) (c :: l) := by
  induction l with
  | nil => rfl
  | cons d ds ih =>
    rw [insertChunk]
    by_cases hc : c.offset ≤ d.offset
    · rw [if_pos hc]
    · rw [if_neg hc]
      exact (ih.cons d).trans (List.Perm.swap c d ds)

theorem sortChunks_perm (l : List chunk) : List.Perm (sortChunks l) l := by
  induction l with
  | nil => rfl
  | cons c cs ih => exact (insertChunk_perm c (sortChunks cs)).trans (ih.cons c)

theorem insertChunk_pairwise (c : chunk) (l : List chunk)
    (h : l.Pairwise (fun a b => a.offset ≤ b.offset)) :
    (insertChunk c l).Pairwise (fun a b => a.offset ≤ b.offset) := by
  induction l with
  | nil => simp [insertChunk]
  | cons d ds ih =>
    rw [List.pairwise_cons] at h
    rw [insertChunk]
    by_cases hc : c.offset ≤ d.offset
    · rw [if_pos hc, List.pairwise_cons]
      constructor
      · intro x hx
        rcases List.mem_cons.mp hx with rfl | hx
        · exact hc
        · exact le_trans hc (h.1 x hx)
      · exact List.pairwise_cons.mpr h
    · rw [if_neg hc, List.pairwise_cons]
      constructor
      · intro x hx
        rcases List.mem_cons.mp ((insertChunk_perm c ds).mem_iff.mp hx) with rfl | hx
        · exact le_of_not_le hc
        · exact h.1 x hx
      · exact ih h.2

theorem sortChunks_pairwise (l : List chunk) :
    (sortChunks l).Pairwise (fun a b => a.offset ≤ b.offset) := by
  induction l with
  | nil => exact List.Pairwise.nil
  | cons c cs ih => exact insertChunk_pairwise c (sortChunks cs) ih

theorem foldl_applyEdits (input : List Char) (cs : List chunk) (acc : List Char)
    (cursor : Nat) :
    (cs.foldl (fun (a : List Char × Nat) (c : chunk) =>
        (a.1 ++ (input.drop a.2).take (c.offset - a.2) ++ c.b, c.offset)) (acc, cursor)).1
      ++ input.drop (cs.foldl (fun (a : List Char × Nat) (c : chunk) =>
        (a.1 ++ (input.drop a.2).take (c.offset - a.2) ++ c.b, c.offset)) (acc, cursor)).2
      = acc ++ applyEdits input cursor cs := by
  induction cs generalizing acc cursor with
  | nil => simp [applyEdits]
  | cons c cs ih =>
    rw [List.foldl_cons, ih]
    simp [applyEdits]

/-- `visitor.out` is exactly the cursor scan over the offset-sorted edits. -/
theorem out_eq_applyEdits (v : visitor) (input : List Char) (hin : v.input = some input) :
    v.out = applyEdits input 0 (sortChunks v.added) := by
  simp only [visitor.out, hin, Option.getD_some]
  rw [foldl_applyEdits input (sortChunks v.added) [] 0]
  simp

theorem length_le_insertAll (cs : List chunk) (l : List Char) :
    l.length ≤ (insertAll cs l).length := by
  induction cs with
  | nil => exact le_refl _
  | cons c cs ih =>
    simp only [insertAll, insertAt, List.length_append, List.length_take, List.length_drop]
    omega

theorem insertAll_take (cs : List chunk) (l : List Char) (k : Nat)
    (hb : ∀ c ∈ cs, k ≤ c.offset) (hk : k ≤ l.length) :
    (insertAll cs l).take k = l.take k := by
  induction cs with
  | nil => rfl
  | cons c cs ih =>
    have hc : k ≤ c.offset := hb c (by simp)
    have hlen : k ≤ ((insertAll cs l).take c.offset).length := by
      rw [List.length_take]
      exact le_min hc (le_trans hk (length_le_insertAll cs l))
    simp only [insertAll, insertAt]
    rw [List.append_assoc, List.take_append_of_le_length hlen, List.take_take,
      Nat.min_eq_left hc]
    exact ih (fun d hd => hb d (by simp [hd]))

theorem sublist_insertAll (cs : List chunk) (l : List Char) :
    l.Sublist (insertAll cs l) := by
  induction cs with
  | nil => exact List.Sublist.refl l
  | cons c cs ih =>
    refine ih.trans ?_
    simp only [insertAll, insertAt]
    conv_lhs => rw [← List.take_append_drop c.offset (insertAll cs l)]
    rw [List.append_assoc]
    exact (List.sublist_append_right c.b _).append_left _

/-- On an ascending, in-bounds edit list the cursor scan computes exactly the
repeated insertion of each text at its offset. -/
theorem applyEdits_eq_insertAll (input : List Char) (cs : List chunk) (cursor : Nat)
    (hsorted : cs.Pairwise (fun a b => a.offset ≤ b.offset))
    (hlo : ∀ c ∈ cs, cursor ≤ c.offset)
    (hhi : ∀ c ∈ cs, c.offset ≤ input.length) :
    applyEdits input cursor cs = (insertAll cs input).drop cursor := by
  induction cs generalizing cursor with
  | nil => rfl
  | cons c cs ih =>
    rw [List.pairwise_cons] at hsorted
    have hco : c.offset ≤ input.length := hhi c (by simp)
    have hcur : cursor ≤ c.offset := hlo c (by simp)
    have htake : (insertAll cs input).take c.offset = input.take c.offset :=
      insertAll_take cs input c.offset hsorted.1 hco
    have hlen : cursor ≤ (input.take c.offset).length := by
      rw [List.length_take]
      exact le_min hcur (hcur.trans hco)
    simp only [applyEdits, insertAll, insertAt, htake]
    conv_rhs => rw [List.append_assoc, List.drop_append_of_le_length hlen, List.drop_take]
    rw [ih c.offset hsorted.2 hsorted.1 (fun d hd => hhi d (List.mem_cons_of_mem c hd)),
      List.append_assoc]

theorem patchList_length (types : List (Nat × GoType)) (ts : List Expr) :
    (patchList types ts).length = ts.length := by
  induction ts with
  | nil => rfl
  | cons e es ih => simp [patchList, ih]

theorem isKeyValue_patchTree (types : List (Nat × GoType)) (e : Expr) :
    (patchTree types e).isKeyValue = e.isKeyValue := by
  cases e with
  | compositeLit id p elts =>
    simp only [patchTree]
    split <;> rfl
  | keyValue p k val => rfl
  | node p cs => rfl

theorem headIsKeyValue_patchList (types : List (Nat × GoType)) (ts : List Expr) :
    headIsKeyValue (patchList types ts) = headIsKeyValue ts := by
  cases ts with
  | nil => rfl
  | cons e es => simp [patchList, headIsKeyValue, isKeyValue_patchTree]

theorem eligible_patchList (types : List (Nat × GoType)) (id p : Nat) (elts : List Expr) :
    eligible types (.compositeLit id p (patchList types elts))
      = eligible types (.compositeLit id p elts) := by
  simp only [eligible, patchList_length, headIsKeyValue_patchList]

theorem eligible_nil_false (types : List (Nat × GoType)) (id p : Nat) :
    eligible types (.compositeLit id p []) = false := by
  rcases hl : List.lookup id types with _ | typ
  · simp [eligible, hl]
  · rcases ha : assertStructType typ with _ | s
    · simp [eligible, hl, ha]
    · rcases s with _ | ⟨f, fs⟩
      · simp [eligible, hl, ha]
      · simp [eligible, hl, ha]

theorem eligible_headKV (types : List (Nat × GoType)) (id p : Nat) (elts : List Expr)
    (h : headIsKeyValue elts = true) :
    eligible types (.compositeLit id p elts) = false := by
  rcases hl : List.lookup id types with _ | typ
  · simp [eligible, hl]
  · rcases ha : assertStructType typ with _ | s
    · simp [eligible, hl, ha]
    · simp [eligible, hl, ha, h]

mutual
theorem walk_patchTree (v : visitor) (t : Expr) : walk v (patchTree v.types t) = v := by
  cases t with
  | compositeLit id p elts =>
    by_cases he : eligible v.types (.compositeLit id p elts) = true
    · cases elts with
      | nil => rw [eligible_nil_false] at he; exact absurd he (by simp)
      | cons e es =>
        simp only [patchTree, he, if_pos]
        simp only [walk]
        rw [Visit_not_eligible v _ (eligible_headKV v.types id p _ (by
          simp [patchList, headIsKeyValue, wrapKey, Expr.isKeyValue]))]
        exact walkList_patchWrap v (e :: es)
    · rw [Bool.not_eq_true] at he
      simp only [patchTree, he, Bool.false_eq_true, if_false]
      simp only [walk]
      rw [Visit_not_eligible v _ (by rw [eligible_patchList, he])]
      exact walkList_patchList v elts
  | keyValue p k val =>
    simp only [patchTree, walk, Visit_keyValue]
    rw [walk_patchTree v k, walk_patchTree v val]
  | node p cs =>
    simp only [patchTree, walk, Visit_node]
    exact walkList_patchList v cs

theorem walkList_patchList (v : visitor) (ts : List Expr) :
    walkList v (patchList v.types ts) = v := by
  cases ts with
  | nil => rfl
  | cons e es =>
    simp only [patchList, walkList]
    rw [walk_patchTree v e]
    exact walkList_patchList v es

theorem walkList_patchWrap (v : visitor) (ts : List Expr) :
    walkList v ((patchList v.types ts).map wrapKey) = v := by
  cases ts with
  | nil => rfl
  | cons e es =>
    simp only [patchList, List.map_cons, walkList, wrapKey]
    simp only [walk, walkList, Visit_keyValue, Visit_node]
    rw [walk_patchTree v e]
    exact walkList_patchWrap v es
end

theorem out_nil_added (v : visitor) (input : List Char) (hin : v.input = some input)
    (ha : v.added = []) : v.out = input := by
  rw [out_eq_applyEdits v input hin, ha]
  rfl

/-- C1: for every input, the Output Buffer equals the original byte sequence
with only the per-element insertion texts added at their offsets; every
original byte not covered by an insertion — whitespace, comments and string
literals included — appears unchanged and in the same order in the output. -/
theorem C1_byte_preservation (v : visitor) (input : List Char)
    (hin : v.input = some input)
    (hb : ∀ c ∈ v.added, c.offset ≤ input.length) :
    v.out = insertAll (sortChunks v.added) input ∧ input.Sublist v.out := by
  have hperm := sortChunks_perm v.added
  have hsorted := sortChunks_pairwise v.added
  have hb2 : ∀ c ∈ sortChunks v.added, c.offset ≤ input.length :=
    fun c hc => hb c (hperm.mem_iff.mp hc)
  have h1 : v.out = insertAll (sortChunks v.added) input := by
    rw [out_eq_applyEdits v input hin,
      applyEdits_eq_insertAll input _ 0 hsorted (fun c _ => Nat.zero_le _) hb2,
      List.drop_zero]
  exact ⟨h1, h1 ▸ sublist_insertAll _ input⟩

theorem C1_byte_preservation_witness :
    (⟨[], some ['a', 'b'], [⟨1, ['X']⟩], false⟩ : visitor).out
        = insertAll (sortChunks [⟨1, ['X']⟩]) ['a', 'b']
      ∧ List.Sublist ['a', 'b'] (⟨[], some ['a', 'b'], [⟨1, ['X']⟩], false⟩ : visitor).out :=
  C1_byte_preservation ⟨[], some ['a', 'b'], [⟨1, ['X']⟩], false⟩ ['a', 'b'] rfl (by decide)

/-- C2: a composite literal whose resolved type is not a field-record shape
(after unwrapping one pointer indirection and one named-type alias), or whose
record has zero fields, or whose element count differs from the field count,
or whose first element is already a key-value association, produces zero
Edits and leaves the visitor — its changed flag included — untouched. -/
theorem C2_not_eligible_no_edits (v : visitor) (id p : Nat) (elts : List Expr)
    (typ : GoType) (hty : List.lookup id v.types = some typ)
    (h : assertStructType typ = none ∨
         ∃ fields, assertStructType typ = some fields ∧
           (fields.length = 0 ∨ elts.length ≠ fields.length ∨ headIsKeyValue elts = true)) :
    v.Visit (.compositeLit id p elts) = v := by
  apply Visit_not_eligible
  rcases h with ha | ⟨fields, ha, h⟩
  · simp [eligible, hty, ha]
  · rcases h with h | h | h
    · simp [eligible, hty, ha, h]
    · simp [eligible, hty, ha, h]
    · exact eligible_headKV v.types id p elts h

theorem C2_not_eligible_no_edits_witness :
    visitor.Visit ⟨[(0, GoType.basic)], none, [], false⟩ (.compositeLit 0 0 []) =
      ⟨[(0, GoType.basic)], none, [], false⟩ :=
  C2_not_eligible_no_edits _ 0 0 [] GoType.basic rfl (Or.inl rfl)

/-- C3: on an eligible literal, when output bytes were requested, the engine
appends exactly one Edit per element — the Edit count equals the element
count — the i-th placed at the start offset of the i-th element and
inserting the i-th declared field name followed by ": ", field names taken
in declared order. -/
theorem C3_one_edit_per_element (v : visitor) (id p : Nat) (elts : List Expr)
    (typ : GoType) (fields : List String)
    (hty : List.lookup id v.types = some typ)
    (hs : assertStructType typ = some fields)
    (hn : fields.length ≠ 0)
    (hlen : elts.length = fields.length)
    (hkey : headIsKeyValue elts = false)
    (hin : v.input.isSome = true) :
    (v.Visit (.compositeLit id p elts)).added.length = v.added.length + elts.length ∧
    ∀ (i : Nat) (hi : i < elts.length) (hif : i < fields.length),
      (v.Visit (.compositeLit id p elts)).added[v.added.length + i]? =
        some { offset := (elts[i]).pos, b := ((fields[i]) ++ ": ").toList } := by
  have he : eligible v.types (.compositeLit id p elts) = true := by
    simp [eligible, hty, hs, hn, hlen, hkey]
  have hv : (v.Visit (.compositeLit id p elts)).added
      = v.added ++ (elts.zip fields).map
          (fun q => { offset := q.1.pos, b := (q.2 ++ ": ").toList }) := by
    rw [Visit_eq, if_pos he]
    simp [hin, litChunks, hty, hs]
  constructor
  · rw [hv]
    simp [List.length_zip, hlen]
  · intro i hi hif
    rw [hv, List.getElem?_append_right (Nat.le_add_right _ _), Nat.add_sub_cancel_left,
      List.getElem?_map]
    have hz : i < (elts.zip fields).length := by
      rw [List.length_zip]
      omega
    rw [List.getElem?_eq_getElem hz, List.getElem_zip]
    rfl

theorem C3_one_edit_per_element_witness :
    ((⟨[(0, GoType.struct ["X"])], some ['a'], [], false⟩ : visitor).Visit
        (.compositeLit 0 0 [.node 0 []])).added.length
      = ([] : List chunk).length + [Expr.node 0 []].length ∧
    ∀ (i : Nat) (hi : i < [Expr.node 0 []].length) (hif : i < (["X"] : List String).length),
      ((⟨[(0, GoType.struct ["X"])], some ['a'], [], false⟩ : visitor).Visit
          (.compositeLit 0 0 [.node 0 []])).added[([] : List chunk).length + i]? =
        some { offset := ([Expr.node 0 []][i]).pos,
               b := (((["X"] : List String)[i]) ++ ": ").toList } :=
  C3_one_edit_per_element ⟨[(0, GoType.struct ["X"])], some ['a'], [], false⟩ 0 0
    [.node 0 []] (GoType.struct ["X"]) ["X"] rfl rfl (by decide) rfl rfl rfl

/-- C4: idempotence — walking the tree that reparsing the first run's
patched output yields produces zero Edits and a false changed flag, so the
second run's Output Buffer equals its own input. -/
theorem C4_idempotent (types : List (Nat × GoType)) (tree : Expr) (input : List Char) :
    (walk { types := types, input := some input, added := [], fixed := false }
        (patchTree types tree)).added = [] ∧
    (walk { types := types, input := some input, added := [], fixed := false }
        (patchTree types tree)).fixed = false ∧
    (walk { types := types, input := some input, added := [], fixed := false }
        (patchTree types tree)).out = input := by
  have h : walk { types := types, input := some input, added := [], fixed := false }
      (patchTree types tree)
      = { types := types, input := some input, added := [], fixed := false } :=
    walk_patchTree _ tree
  rw [h]
  exact ⟨rfl, rfl, out_nil_added _ input rfl rfl⟩

/-- C5: the Patch Applier sorts the edit set by ascending offset and then,
in one cursor pass starting at 0, appends for each edit the original bytes
from the cursor up to but not including the edit's offset, then the edit's
text, advancing the cursor exactly to the offset; after the last edit it
appends the remaining original bytes. -/
theorem C5_patch_applier (v : visitor) (input : List Char) (hin : v.input = some input) :
    List.Perm (sortChunks v.added) v.added ∧
    (sortChunks v.added).Pairwise (fun a b => a.offset ≤ b.offset) ∧
    v.out = applyEdits input 0 (sortChunks v.added) :=
  ⟨sortChunks_perm v.added, sortChunks_pairwise v.added, out_eq_applyEdits v input hin⟩

theorem C5_patch_applier_witness :
    List.Perm (sortChunks [⟨2, ['Y']⟩, ⟨0, ['X']⟩]) [⟨2, ['Y']⟩, ⟨0, ['X']⟩] ∧
    (sortChunks [⟨2, ['Y']⟩, ⟨0, ['X']⟩]).Pairwise (fun a b => a.offset ≤ b.offset) ∧
    (⟨[], some ['a', 'b'], [⟨2, ['Y']⟩, ⟨0, ['X']⟩], false⟩ : visitor).out
      = applyEdits ['a', 'b'] 0 (sortChunks [⟨2, ['Y']⟩, ⟨0, ['X']⟩]) :=
  C5_patch_applier ⟨[], some ['a', 'b'], [⟨2, ['Y']⟩, ⟨0, ['X']⟩], false⟩ ['a', 'b'] rfl

/-- C6: a composite literal with no recorded type information is treated as
not eligible — the visitor is returned untouched — and missing or partial
type information never fails the run: `fixFile` returns successfully, for
any type table, whenever its input read succeeds. -/
theorem C6_unresolved_type (v : visitor) (id p : Nat) (elts : List Expr)
    (hty : List.lookup id v.types = none) :
    v.Visit (.compositeLit id p elts) = v ∧
    ∀ (fs : String → Option (List Char)) (fmt : List Char → List Char)
      (path : String) (tree : Expr) (content : List Char),
      fs path = some content →
      fixFile fs fmt true path v.types tree =
        .ok (some (fmt (walk (initVisitor v.types (some content)) tree).out),
             (walk (initVisitor v.types (some content)) tree).fixed) ∧
      fixFile fs fmt false path v.types tree =
        .ok (none, (walk (initVisitor v.types none) tree).fixed) := by
  constructor
  · apply Visit_not_eligible
    simp [eligible, hty]
  · intro fs fmt path tree content hfs
    constructor
    · simp [fixFile, hfs]
    · simp [fixFile]

theorem C6_unresolved_type_witness :
    visitor.Visit ⟨[], none, [], false⟩ (.compositeLit 0 0 []) = ⟨[], none, [], false⟩ ∧
    ∀ (fs : String → Option (List Char)) (fmt : List Char → List Char)
      (path : String) (tree : Expr) (content : List Char),
      fs path = some content →
      fixFile fs fmt true path [] tree =
        .ok (some (fmt (walk (initVisitor [] (some content)) tree).out),
             (walk (initVisitor [] (some content)) tree).fixed) ∧
      fixFile fs fmt false path [] tree =
        .ok (none, (walk (initVisitor [] none) tree).fixed) :=
  C6_unresolved_type ⟨[], none, [], false⟩ 0 0 [] rfl

/-- C7 (code slip): in the default stdin mode (no paths, list and overwrite
both off) the run never reaches stdout: `fixFile` is invoked with an output
writer and `path = ""`, and it reads `v.in` from that empty path instead of
from the already-parsed stream, so the read fails and the run aborts for
every input. -/
theorem C7_stdin_default_mode_fails (fs : String → Option (List Char))
    (fmt : List Char → List Char) (types : List (Nat × GoType)) (tree : Expr)
    (hfs : fs "" = none) :
    mainStdin fs fmt false false types tree =
      .runError ("open " ++ "" ++ ": no such file or directory") := by
  simp [mainStdin, fixFile, hfs]

theorem C7_stdin_default_mode_fails_witness :
    mainStdin (fun _ => none) id false false [] (.node 0 []) =
      .runError ("open " ++ "" ++ ": no such file or directory") :=
  C7_stdin_default_mode_fails (fun _ => none) id [] (.node 0 []) rfl

/-- C8: the changed flag equals "some literal in the tree is eligible",
independently of whether output bytes were requested (the `input` field);
in list-only mode the file result prints the path exactly when the flag is
true and constructs no output buffer. -/
theorem C8_changed_flag (types : List (Nat × GoType)) (tree : Expr)
    (i : Option (List Char)) :
    (walk (initVisitor types i) tree).fixed = anyEligible types tree ∧
    ∀ (fs : String → Option (List Char)) (fmt : List Char → List Char) (path : String),
      processFile fs fmt false true path types tree =
        .ok { stdoutText := none, printedPath := anyEligible types tree, written := none } := by
  have hfix : ∀ (j : Option (List Char)),
      (walk (initVisitor types j) tree).fixed = anyEligible types tree := by
    intro j
    have h := (walk_spec (initVisitor types j) tree).2.2
    simpa [initVisitor] using h
  refine ⟨hfix i, ?_⟩
  intro fs fmt path
  simp [processFile, fixFile, hfix none]

/-- C9: overwrite mode together with the stdin input is a fatal usage
error, taken before anything is parsed, type-resolved or patched. -/
theorem C9_overwrite_stdin_usage_error (fs : String → Option (List Char))
    (fmt : List Char → List Char) (l : Bool) (types : List (Nat × GoType)) (tree : Expr) :
    mainStdin fs fmt true l types tree = .usageError := by
  simp [mainStdin]

/-- C10: in overwrite mode every file that processes without error is
written back unconditionally; when no literal was eligible the changed flag
is false and the bytes written are just the formatter's rendering of the
original content. -/
theorem C10_overwrite_always_writes (fs : String → Option (List Char))
    (fmt : List Char → List Char) (l : Bool) (path : String)
    (types : List (Nat × GoType)) (tree : Expr) (content : List Char)
    (hread : fs path = some content) :
    processFile fs fmt true l path types tree =
      .ok { stdoutText := none,
            printedPath := anyEligible types tree && l,
            written := some (fmt (walk (initVisitor types (some content)) tree).out) } ∧
    (anyEligible types tree = false →
      processFile fs fmt true l path types tree =
        .ok { stdoutText := none, printedPath := false,
              written := some (fmt content) }) := by
  have hfix : (walk (initVisitor types (some content)) tree).fixed = anyEligible types tree := by
    have h := (walk_spec (initVisitor types (some content)) tree).2.2
    simpa [initVisitor] using h
  constructor
  · simp [processFile, fixFile, hread, hfix]
  · intro hno
    have hwalk : walk (initVisitor types (some content)) tree = initVisitor types (some content) := by
      apply walk_no_eligible
      simpa [initVisitor] using hno
    have hout : (walk (initVisitor types (some content)) tree).out = content := by
      rw [hwalk]
      exact out_nil_added _ content rfl rfl
    have hfix2 : (walk (initVisitor types (some content)) tree).fixed = false := by
      rw [hfix, hno]
    simp [processFile, fixFile, hread, hout, hfix2]

theorem C10_overwrite_always_writes_witness :
    processFile (fun _ => some ['a']) id true false "f" [] (.node 0 []) =
      .ok { stdoutText := none,
            printedPath := anyEligible [] (.node 0 []) && false,
            written := some (id (walk (initVisitor [] (some ['a'])) (.node 0 [])).out) } ∧
    (anyEligible [] (.node 0 []) = false →
      processFile (fun _ => some ['a']) id true false "f" [] (.node 0 []) =
        .ok { stdoutText := none, printedPath := false,
              written := some (id ['a']) }) :=
  C10_overwrite_always_writes (fun _ => some ['a']) id false "f" [] (.node 0 []) ['a'] rfl
